import Mathlib

/-!
# Verification of the textkit layout-engine core

Shallow embedding, in Lean 4, of the parts of the `react-pdf/textkit`
repository that the verified claims are about:

* `splitParagraphs`, `wrapWords`, `resolveGlyphIndices`,
  `resolveAttachments` and `finalizeLineFragment` from
  `src/packages/core/src/layout/LayoutEngine.js`;
* the justification engine (`factor`, `assign`, `getFactors`,
  `justifyLine`, `justification`) from the engines source file.

Strings are `List Char`, glyph ids are `Nat`, geometric quantities are `ℚ`
(JS numbers used for widths and advances; all arithmetic in the relevant
code paths is exact).  JS `undefined` entries in arrays are `Option`
`none`.  Mutation of `positions` in place is rendered as returning an
updated structure.
-/

namespace Textkit

/-! ## Paragraph splitting (`splitParagraphs`, LayoutEngine.js 99-119)

The source repeatedly takes `indexOf('\n') + 1` as a break point, slicing
`[start, breakPoint)` while a newline is found, then pushes the trailing
non-terminated remainder.  Rendered as a fuel-based recursion on the first
newline index (the fuel is the string length, which strictly bounds the
number of loop iterations). -/

/-- One step of the `splitParagraphs` loop: slice up to and including the
first `'\n'`, recurse on the rest; with no newline left, emit the trailing
remainder when it is non-empty.  `fuel` bounds the iteration count. -/
def splitParagraphsAux : Nat → List Char → List (List Char)
  | 0, s => if s.isEmpty then [] else [s]
  | fuel + 1, s =>
    match s.findIdx? (· = '\n') with
    | some i => s.take (i + 1) :: splitParagraphsAux fuel (s.drop (i + 1))
    | none => if s.isEmpty then [] else [s]

/-- `splitParagraphs` from `LayoutEngine.js`: split an attributed string's
character sequence into paragraphs, each newline staying attached to the
paragraph it terminates. -/
def splitParagraphs (s : List Char) : List (List Char) :=
  splitParagraphsAux s.length s

theorem findIdx?_some_facts {α : Type} (p : α → Bool) :
    ∀ (l : List α) (i : Nat), l.findIdx? p = some i →
      i < l.length ∧ (∀ x ∈ l.take i, p x = false) ∧
        ∃ c, l[i]? = some c ∧ p c = true := by
  intro l
  induction l with
  | nil => intro i h; simp [List.findIdx?_nil] at h
  | cons a t ih =>
    intro i h
    rw [List.findIdx?_cons] at h
    by_cases hp : p a
    · simp [hp] at h
      subst h
      exact ⟨Nat.succ_pos _, by simp, a, by simp, hp⟩
    · simp [hp] at h
      obtain ⟨j, hj, rfl⟩ := h
      obtain ⟨h1, h2, c, hc, hpc⟩ := ih j hj
      refine ⟨by simp only [List.length_cons]; omega, ?_, c, by simpa using hc, hpc⟩
      intro x hx
      rw [List.take_succ_cons] at hx
      rcases List.mem_cons.1 hx with rfl | hx
      · simpa using hp
      · exact h2 x hx

theorem findIdx?_none_facts {α : Type} (p : α → Bool) :
    ∀ (l : List α), l.findIdx? p = none → ∀ x ∈ l, p x = false := by
  intro l
  induction l with
  | nil => intro _ x hx; simp at hx
  | cons a t ih =>
    intro h x hx
    rw [List.findIdx?_cons] at h
    by_cases hp : p a
    · simp [hp] at h
    · simp [hp] at h
      rcases List.mem_cons.1 hx with rfl | hx
      · simpa using hp
      · exact h x hx

theorem splitParagraphsAux_fuel_irrel :
    ∀ (f₁ f₂ : Nat) (s : List Char), s.length ≤ f₁ → s.length ≤ f₂ →
      splitParagraphsAux f₁ s = splitParagraphsAux f₂ s := by
  intro f₁
  induction f₁ with
  | zero =>
    intro f₂ s h1 _
    have hs : s = [] := List.length_eq_zero.mp (Nat.le_zero.mp h1)
    subst hs
    cases f₂ <;> simp [splitParagraphsAux, List.findIdx?_nil]
  | succ f ih =>
    intro f₂ s h1 h2
    cases f₂ with
    | zero =>
      have hs : s = [] := List.length_eq_zero.mp (Nat.le_zero.mp h2)
      subst hs
      simp [splitParagraphsAux, List.findIdx?_nil]
    | succ g =>
      cases hfi : s.findIdx? (· = '\n') with
      | none => simp [splitParagraphsAux, hfi]
      | some i =>
        have hi := (findIdx?_some_facts _ s i hfi).1
        have hlen : (s.drop (i + 1)).length ≤ f := by
          simp only [List.length_drop]; omega
        have hlen' : (s.drop (i + 1)).length ≤ g := by
          simp only [List.length_drop]; omega
        simp only [splitParagraphsAux, hfi]
        rw [ih g (s.drop (i + 1)) hlen hlen']

theorem splitParagraphsAux_flatten :
    ∀ (f : Nat) (s : List Char), s.length ≤ f →
      (splitParagraphsAux f s).flatten = s := by
  intro f
  induction f with
  | zero =>
    intro s h
    have hs : s = [] := List.length_eq_zero.mp (Nat.le_zero.mp h)
    subst hs; simp [splitParagraphsAux]
  | succ f ih =>
    intro s h
    cases hfi : s.findIdx? (· = '\n') with
    | none =>
      by_cases hs : s.isEmpty
      · have h0 : s = [] := by simpa using hs
        subst h0
        simp [splitParagraphsAux, hfi]
      · simp [splitParagraphsAux, hfi, hs]
    | some i =>
      have hi := (findIdx?_some_facts _ s i hfi).1
      have hlen : (s.drop (i + 1)).length ≤ f := by
        simp only [List.length_drop]; omega
      simp only [splitParagraphsAux, hfi, List.flatten_cons]
      rw [ih _ hlen, List.take_append_drop]

theorem splitParagraphsAux_pieces :
    ∀ (f : Nat) (s : List Char), s.length ≤ f →
      ∀ p ∈ splitParagraphsAux f s, p ≠ [] ∧ '\n' ∉ p.dropLast := by
  intro f
  induction f with
  | zero =>
    intro s h p hp
    have hs : s = [] := List.length_eq_zero.mp (Nat.le_zero.mp h)
    subst hs; simp [splitParagraphsAux] at hp
  | succ f ih =>
    intro s h p hp
    cases hfi : s.findIdx? (· = '\n') with
    | none =>
      by_cases hs : s.isEmpty
      · simp [splitParagraphsAux, hfi, hs] at hp
      · simp only [splitParagraphsAux, hfi, if_neg hs, List.mem_singleton] at hp
        rw [hp]
        refine ⟨fun hnil => hs (by simp [hnil]), fun hmem => ?_⟩
        have hmem' : '\n' ∈ s := (List.dropLast_sublist s).mem hmem
        have := findIdx?_none_facts _ s hfi '\n' hmem'
        simp at this
    | some i =>
      obtain ⟨hi, htake, c, hc, hpc⟩ := findIdx?_some_facts _ s i hfi
      have hlen : (s.drop (i + 1)).length ≤ f := by
        simp only [List.length_drop]; omega
      simp only [splitParagraphsAux, hfi, List.mem_cons] at hp
      rcases hp with rfl | hp
      · constructor
        · intro hnil
          have : (s.take (i + 1)).length = 0 := by rw [hnil]; simp
          simp only [List.length_take] at this
          omega
        · intro hmem
          rw [List.dropLast_eq_take, List.length_take, List.take_take] at hmem
          have hmin : min (min (i + 1) s.length - 1) (i + 1) = i := by omega
          rw [hmin] at hmem
          have := htake '\n' hmem
          simp at this
      · exact ih _ hlen p hp

theorem splitParagraphsAux_inner_newline :
    ∀ (f : Nat) (s : List Char), s.length ≤ f →
      ∀ p ∈ (splitParagraphsAux f s).dropLast, p.getLast? = some '\n' := by
  intro f
  induction f with
  | zero =>
    intro s h p hp
    have hs : s = [] := List.length_eq_zero.mp (Nat.le_zero.mp h)
    subst hs; simp [splitParagraphsAux] at hp
  | succ f ih =>
    intro s h p hp
    cases hfi : s.findIdx? (· = '\n') with
    | none =>
      by_cases hs : s.isEmpty
      · simp [splitParagraphsAux, hfi, hs] at hp
      · simp [splitParagraphsAux, hfi, hs] at hp
    | some i =>
      obtain ⟨hi, htake, c, hc, hpc⟩ := findIdx?_some_facts _ s i hfi
      have hlen : (s.drop (i + 1)).length ≤ f := by
        simp only [List.length_drop]; omega
      simp only [splitParagraphsAux, hfi] at hp
      cases hrest : splitParagraphsAux f (s.drop (i + 1)) with
      | nil => rw [hrest] at hp; simp at hp
      | cons r rs =>
        rw [hrest, List.dropLast_cons₂] at hp
        rcases List.mem_cons.1 hp with rfl | hp
        · have hq : (List.take (i + 1) s).length = i + 1 := by
            simp only [List.length_take]; omega
          rw [List.getLast?_eq_getElem?, hq, Nat.add_sub_cancel,
            List.getElem?_take_of_lt (Nat.lt_succ_self i), hc]
          have hcn : c = '\n' := by simpa using hpc
          rw [hcn]
        · exact ih _ hlen p (by rw [hrest]; exact hp)

theorem splitParagraphs_cons_newline (t : List Char) :
    splitParagraphs ('\n' :: t) = ['\n'] :: splitParagraphs t := by
  show splitParagraphsAux ('\n' :: t).length ('\n' :: t) = _
  have hfi : ('\n' :: t).findIdx? (· = '\n') = some 0 := by
    rw [List.findIdx?_cons]; simp
  simp only [List.length_cons, splitParagraphsAux, hfi, Nat.zero_add,
    List.take_succ_cons, List.take_zero, List.drop_succ_cons, List.drop_zero]
  rfl

/-- C1.  `splitParagraphs` cuts the string into paragraphs that
concatenate back to the input; every paragraph is non-empty and contains
no newline before its final character; every paragraph except possibly
the last one ends with `'\n'`; a leading `'\n'` forms its own
single-character paragraph. -/
theorem splitParagraphs_spec (s : List Char) :
    (splitParagraphs s).flatten = s ∧
    (∀ p ∈ splitParagraphs s, p ≠ [] ∧ '\n' ∉ p.dropLast) ∧
    (∀ p ∈ (splitParagraphs s).dropLast, p.getLast? = some '\n') ∧
    (∀ t : List Char, splitParagraphs ('\n' :: t) = ['\n'] :: splitParagraphs t) := by
  refine ⟨splitParagraphsAux_flatten s.length s le_rfl,
    splitParagraphsAux_pieces s.length s le_rfl,
    splitParagraphsAux_inner_newline s.length s le_rfl,
    splitParagraphs_cons_newline⟩

/-- C1 witness: the behaviour at `"a\n\nb"`: paragraphs
`"a\n"`, `"\n"`, `"b"`; in particular `"a\n"` is a non-final paragraph
ending in the newline, and a leading newline splits off on its own. -/
theorem splitParagraphs_spec_witness :
    (splitParagraphs ['a', '\n', '\n', 'b']).flatten = ['a', '\n', '\n', 'b'] ∧
    (['a', '\n'] ≠ ([] : List Char) ∧ '\n' ∉ (['a', '\n'] : List Char).dropLast) ∧
    (['a', '\n'] : List Char).getLast? = some '\n' ∧
    splitParagraphs ('\n' :: ['b']) = ['\n'] :: splitParagraphs ['b'] := by
  have h := splitParagraphs_spec ['a', '\n', '\n', 'b']
  have hmem : ['a', '\n'] ∈ splitParagraphs ['a', '\n', '\n', 'b'] := by decide
  have hmem' : ['a', '\n'] ∈ (splitParagraphs ['a', '\n', '\n', 'b']).dropLast := by decide
  exact ⟨h.1, h.2.1 _ hmem, h.2.2.1 _ hmem', h.2.2.2 ['b']⟩

/-! ## Glyph index reconciliation (`resolveGlyphIndices`, LayoutEngine.js 147-180)

The first scan writes, for each character offset `i`, the first glyph
index `j` with `stringIndices[j] >= i`, leaving `undefined` when no such
`j` exists; a right-to-left and a left-to-right fill pass then replace
`undefined` slots with the nearest defined value seen by the pass. -/

/-- First scan of `resolveGlyphIndices`.  When `stringIndices` is empty
the JS inner loop never assigns, so the array stays empty. -/
def glyphIndicesScan (slen : Nat) (stringIndices : List Nat) : List (Option Nat) :=
  if stringIndices.isEmpty then []
  else (List.range slen).map fun i => stringIndices.findIdx? fun v => i ≤ v

/-- One directional fill pass: walk the list carrying the most recent
defined value (`lastValue` in the JS), replacing `undefined` entries with
it and updating it at defined entries. -/
def fillPass (init : Option Nat) : List (Option Nat) → List (Option Nat)
  | [] => []
  | none :: xs => init :: fillPass init xs
  | some v :: xs => some v :: fillPass (some v) xs

/-- The right-to-left fill of `resolveGlyphIndices`: `lastValue` starts
at the final entry and the walk runs from the end towards the front. -/
def backwardFill (l : List (Option Nat)) : List (Option Nat) :=
  (fillPass (l.getLast?.getD none) l.reverse).reverse

/-- The left-to-right fill of `resolveGlyphIndices`: `lastValue` starts
at the first entry. -/
def forwardFill (l : List (Option Nat)) : List (Option Nat) :=
  fillPass (l.head?.getD none) l

/-- `resolveGlyphIndices` from `LayoutEngine.js`: scan, then back-fill,
then forward-fill. -/
def resolveGlyphIndices (slen : Nat) (stringIndices : List Nat) : List (Option Nat) :=
  forwardFill (backwardFill (glyphIndicesScan slen stringIndices))

theorem fillPass_of_all_some (init : Option Nat) :
    ∀ (l : List (Option Nat)), (∀ x ∈ l, x.isSome = true) → fillPass init l = l := by
  intro l
  induction l generalizing init with
  | nil => intro _; rfl
  | cons x xs ih =>
    intro h
    cases x with
    | none => have := h none (by simp); simp at this
    | some v => simp only [fillPass]; rw [ih (some v) fun y hy => h y (by simp [hy])]

theorem fillPass_replicate_none (init : Option Nat) (k : Nat) :
    ∀ (l : List (Option Nat)),
      fillPass init (List.replicate k none ++ l) =
        List.replicate k init ++ fillPass init l := by
  induction k with
  | zero => intro l; simp
  | succ k ih =>
    intro l
    simp only [List.replicate_succ, List.cons_append, fillPass, List.append_eq, ih]

theorem fillPass_append_all_some (init : Option Nat) :
    ∀ (A B : List (Option Nat)), (∀ x ∈ A, x.isSome = true) →
      fillPass init (A ++ B) = A ++ fillPass (A.getLast?.getD init) B := by
  intro A
  induction A generalizing init with
  | nil => intro B _; simp
  | cons x xs ih =>
    intro B h
    cases x with
    | none => have := h none (by simp); simp at this
    | some v =>
      simp only [List.cons_append, fillPass, List.append_eq]
      rw [ih (some v) B fun y hy => h y (by simp [hy])]
      cases xs with
      | nil => simp
      | cons z zs =>
        have hy : ∃ y, (z :: zs).getLast? = some y :=
          ⟨(z :: zs).getLast (by simp), List.getLast?_eq_getLast _ _⟩
        obtain ⟨y, hy⟩ := hy
        rw [List.getLast?_cons_cons, hy]
        simp

theorem backwardFill_of_suffix_none (A : List (Option Nat)) (k : Nat)
    (h : ∀ x ∈ A, x.isSome = true) :
    backwardFill (A ++ List.replicate k none) = A ++ List.replicate k none := by
  unfold backwardFill
  cases k with
  | zero =>
    simp only [List.replicate_zero, List.append_nil]
    rw [fillPass_of_all_some _ _ (by intro x hx; exact h x (List.mem_reverse.mp hx)),
      List.reverse_reverse]
  | succ k =>
    have hlast : (A ++ List.replicate (k + 1) none).getLast?.getD none = none := by
      have hsplit : A ++ List.replicate (k + 1) none =
          (A ++ List.replicate k none) ++ [none] := by
        rw [List.replicate_succ', List.append_assoc]
      rw [hsplit, List.getLast?_concat]
      rfl
    rw [hlast, List.reverse_append, List.reverse_replicate,
      fillPass_replicate_none,
      fillPass_of_all_some _ _ (by intro x hx; exact h x (List.mem_reverse.mp hx)),
      List.reverse_append, List.reverse_replicate, List.reverse_reverse]

theorem findIdx?_mono_pred {α : Type} (p q : α → Bool)
    (himp : ∀ a, q a = true → p a = true) :
    ∀ (l : List α) (j : Nat), l.findIdx? q = some j →
      ∃ k ≤ j, l.findIdx? p = some k := by
  intro l
  induction l with
  | nil => intro j h; simp [List.findIdx?_nil] at h
  | cons a t ih =>
    intro j h
    rw [List.findIdx?_cons] at h
    by_cases hq : q a
    · simp [hq] at h
      subst h
      refine ⟨0, le_rfl, ?_⟩
      rw [List.findIdx?_cons, if_pos (himp a hq)]
    · simp [hq] at h
      obtain ⟨j', hj', rfl⟩ := h
      by_cases hp : p a
      · exact ⟨0, Nat.zero_le _, by rw [List.findIdx?_cons, if_pos hp]⟩
      · obtain ⟨k, hk, hfk⟩ := ih j' hj'
        refine ⟨k + 1, by omega, ?_⟩
        rw [List.findIdx?_cons, if_neg hp]
        simp only [List.findIdx?_succ]
        rw [hfk]
        rfl

theorem foldr_max_mem : ∀ (l : List Nat), l ≠ [] → l.foldr max 0 ∈ l := by
  intro l
  induction l with
  | nil => intro h; exact absurd rfl h
  | cons a t ih =>
    intro _
    cases t with
    | nil => simp
    | cons b u =>
      have hstep : (a :: b :: u).foldr max 0 = max a ((b :: u).foldr max 0) := rfl
      rw [hstep]
      rcases Nat.le_total ((b :: u).foldr max 0) a with hle | hle
      · rw [max_eq_left hle]; exact List.mem_cons_self _ _
      · rw [max_eq_right hle]
        exact List.mem_cons_of_mem _ (ih (by simp))

theorem le_foldr_max : ∀ (l : List Nat) (v : Nat), v ∈ l → v ≤ l.foldr max 0 := by
  intro l
  induction l with
  | nil => intro v hv; simp at hv
  | cons a t ih =>
    intro v hv
    rcases List.mem_cons.1 hv with rfl | hv
    · exact Nat.le_max_left _ _
    · exact le_trans (ih v hv) (Nat.le_max_right _ _)

/-- Entries of the first scan are defined exactly for character offsets
up to the greatest string index. -/
theorem scan_entry_some (stringIndices : List Nat) (hne : stringIndices ≠ [])
    (i : Nat) (hi : i ≤ stringIndices.foldr max 0) :
    ∃ j, (stringIndices.findIdx? fun v => i ≤ v) = some j := by
  cases hfi : stringIndices.findIdx? fun v => i ≤ v with
  | some j => exact ⟨j, rfl⟩
  | none =>
    exfalso
    have hall := List.findIdx?_eq_none_iff.mp hfi
    have hmem := foldr_max_mem stringIndices hne
    have := hall _ hmem
    simp only [decide_eq_false_iff_not, not_le] at this
    omega

theorem scan_entry_none (stringIndices : List Nat) (i : Nat)
    (hi : stringIndices.foldr max 0 < i) :
    (stringIndices.findIdx? fun v => i ≤ v) = none := by
  rw [List.findIdx?_eq_none_iff]
  intro v hv
  have := le_foldr_max stringIndices v hv
  simp only [decide_eq_false_iff_not, not_le]
  omega

theorem chain'_replicate_of_refl {α : Type} (R : α → α → Prop) (a : α) (h : R a a) :
    ∀ k, List.Chain' R (List.replicate k a) := by
  intro k
  induction k with
  | zero => simp
  | succ k ih =>
    cases k with
    | zero => simp
    | succ m =>
      rw [List.replicate_succ, List.replicate_succ]
      exact List.Chain'.cons h (by rw [← List.replicate_succ]; exact ih)

/-- The defined part of the scan, as a fully-`some` monotone block. -/
theorem scan_defined_block (stringIndices : List Nat) (hne : stringIndices ≠ []) (n : Nat)
    (hn : n ≤ stringIndices.foldr max 0 + 1) :
    (∀ x ∈ (List.range n).map (fun i => stringIndices.findIdx? fun v => i ≤ v),
        x.isSome = true) ∧
    List.Chain' (fun a b : Option Nat => a.getD 0 ≤ b.getD 0)
      ((List.range n).map (fun i => stringIndices.findIdx? fun v => i ≤ v)) := by
  constructor
  · intro x hx
    obtain ⟨i, hi, rfl⟩ := List.mem_map.1 hx
    rw [List.mem_range] at hi
    obtain ⟨j, hj⟩ := scan_entry_some stringIndices hne i (by omega)
    rw [hj]; rfl
  · rw [List.chain'_map]
    cases n with
    | zero => simp
    | succ m =>
      rw [List.chain'_range_succ]
      intro i hi
      obtain ⟨j', hj'⟩ := scan_entry_some stringIndices hne (i + 1) (by omega)
      obtain ⟨k, hk, hfk⟩ := findIdx?_mono_pred (fun v => decide (i ≤ v))
        (fun v => decide (i + 1 ≤ v))
        (by intro a ha; simp only [decide_eq_true_eq] at *; omega)
        stringIndices j' hj'
      rw [hj', hfk]
      simpa using hk

/-- C2.  For a non-empty, non-decreasing `stringIndices`,
`resolveGlyphIndices` returns one glyph index per character: the result
has the string's length, contains no `undefined` entry, and is monotone
non-decreasing. -/
theorem resolveGlyphIndices_spec (slen : Nat) (stringIndices : List Nat)
    (hne : stringIndices ≠ [])
    (hmono : List.Chain' (· ≤ ·) stringIndices) :
    (resolveGlyphIndices slen stringIndices).length = slen ∧
    (∀ x ∈ resolveGlyphIndices slen stringIndices, x.isSome = true) ∧
    List.Chain' (fun a b : Option Nat => a.getD 0 ≤ b.getD 0)
      (resolveGlyphIndices slen stringIndices) := by
  classical
  set M := stringIndices.foldr max 0 with hM
  have hscan : glyphIndicesScan slen stringIndices =
      (List.range slen).map fun i => stringIndices.findIdx? fun v => i ≤ v := by
    unfold glyphIndicesScan
    rw [if_neg (by simpa using hne)]
  by_cases hcase : slen ≤ M + 1
  · -- every character offset is covered: the scan is already total
    obtain ⟨htot, hchain⟩ := scan_defined_block stringIndices hne slen hcase
    have hb : backwardFill (glyphIndicesScan slen stringIndices) =
        glyphIndicesScan slen stringIndices := by
      have := backwardFill_of_suffix_none
        ((List.range slen).map fun i => stringIndices.findIdx? fun v => i ≤ v) 0
        (by rw [← hscan]; intro x hx; exact htot x (by rwa [hscan] at hx))
      simpa [hscan] using this
    have hf : forwardFill (glyphIndicesScan slen stringIndices) =
        glyphIndicesScan slen stringIndices := by
      unfold forwardFill
      exact fillPass_of_all_some _ _ (by rw [hscan]; intro x hx; exact htot x hx)
    unfold resolveGlyphIndices
    rw [hb, hf, hscan]
    refine ⟨by simp, htot, hchain⟩
  · -- offsets past the last string index are undefined, then filled
    push_neg at hcase
    obtain ⟨k, hk⟩ : ∃ k, slen = (M + 1) + k := ⟨slen - (M + 1), by omega⟩
    set A := (List.range (M + 1)).map fun i => stringIndices.findIdx? fun v => i ≤ v with hA
    obtain ⟨htot, hchain⟩ := scan_defined_block stringIndices hne (M + 1) le_rfl
    have hAlen : A.length = M + 1 := by simp [hA]
    have hsplit : glyphIndicesScan slen stringIndices = A ++ List.replicate k none := by
      rw [hscan, hk, List.range_add, List.map_append]
      congr 1
      rw [List.eq_replicate_iff]
      refine ⟨by simp, ?_⟩
      intro b hb
      obtain ⟨i, hi, rfl⟩ := List.mem_map.1 hb
      obtain ⟨j, hj, rfl⟩ := List.mem_map.1 hi
      exact scan_entry_none stringIndices _ (by omega)
    have hAne : A ≠ [] := by
      intro h0; rw [h0] at hAlen; simp at hAlen
    have hsome := htot _ (List.getLast_mem hAne)
    obtain ⟨w, hw'⟩ := Option.isSome_iff_exists.mp hsome
    have hw : A.getLast? = some (some w) := by
      rw [List.getLast?_eq_getLast A hAne, hw']
    unfold resolveGlyphIndices
    rw [hsplit, backwardFill_of_suffix_none A k htot]
    unfold forwardFill
    rw [fillPass_append_all_some _ A _ htot, hw]
    have hrep : fillPass (some w) (List.replicate k none) = List.replicate k (some w) := by
      have := fillPass_replicate_none (some w) k []
      simpa [fillPass] using this
    simp only [Option.getD_some, hrep]
    refine ⟨by simp [hAlen]; omega, ?_, ?_⟩
    · intro x hx
      rcases List.mem_append.1 hx with hx | hx
      · exact htot x hx
      · rw [List.eq_of_mem_replicate hx]; rfl
    · rw [List.chain'_append]
      refine ⟨hchain,
        chain'_replicate_of_refl (fun a b : Option Nat => a.getD 0 ≤ b.getD 0)
          (some w) le_rfl k, ?_⟩
      intro x hx y hy
      rw [hw] at hx
      obtain rfl : some w = x := by simpa using hx
      cases k with
      | zero => simp at hy
      | succ m =>
        rw [List.replicate_succ] at hy
        obtain rfl : some w = y := by simpa using hy
        exact le_rfl

/-- C2 witness: the `"office"` shaping (six characters, glyph string
indices `[0,1,2,4,5]`), where the hypotheses hold and the reconciled
indices are total and monotone. -/
theorem resolveGlyphIndices_spec_witness :
    ([0, 1, 2, 4, 5] : List Nat) ≠ [] ∧
    List.Chain' (· ≤ ·) ([0, 1, 2, 4, 5] : List Nat) ∧
    ((resolveGlyphIndices 6 [0, 1, 2, 4, 5]).length = 6 ∧
     (∀ x ∈ resolveGlyphIndices 6 [0, 1, 2, 4, 5], x.isSome = true) ∧
     List.Chain' (fun a b : Option Nat => a.getD 0 ≤ b.getD 0)
       (resolveGlyphIndices 6 [0, 1, 2, 4, 5])) :=
  ⟨by decide, by norm_num [List.chain'_cons],
    resolveGlyphIndices_spec 6 [0, 1, 2, 4, 5] (by decide)
      (by norm_num [List.chain'_cons])⟩

/-- C5 counterexample: the spec's expected array `[0,0,0,1,2,3,4]` has
seven entries, but `resolveGlyphIndices` over the six characters of
`"office"` (five glyphs, string indices `[0,1,2,4,5]` for an `fi`
ligature) returns six entries, and they are not `[0,0,0,1,2,3,4]`. -/
theorem office_glyphIndices_claim_false :
    ¬ ((resolveGlyphIndices 6 [0, 1, 2, 4, 5]).map (fun x => x.getD 0) =
      [0, 0, 0, 1, 2, 3, 4]) := by decide

/-- C5 amended: for `"office"` shaped to five glyphs with string indices
`[0,1,2,4,5]`, the reconciled glyph indices are `[0,1,2,3,3,4]`; every
character maps to a defined glyph index below the glyph count 5. -/
theorem office_glyphIndices_amended :
    resolveGlyphIndices 6 [0, 1, 2, 4, 5] =
      [some 0, some 1, some 2, some 3, some 3, some 4] ∧
    ∀ x ∈ resolveGlyphIndices 6 [0, 1, 2, 4, 5], ∃ j, x = some j ∧ j < 5 := by decide

/-! ## Attachment resolution (`resolveAttachments`, LayoutEngine.js 222-240,
also `GlyphGenerator.resolveAttachments`)

A glyph run's positions, glyph ids and attributes.  Glyphs are compared by
identity in the JS (`glyph === objectReplacement`); fontkit serves one
glyph object per code point per font, so identity coincides with glyph
id equality, and glyphs are embedded as their ids. -/

/-- A glyph position record (`{ xAdvance, yAdvance, xOffset, yOffset }`). -/
structure Position where
  xAdvance : ℚ
  yAdvance : ℚ
  xOffset : ℚ
  yOffset : ℚ
deriving Repr, DecidableEq

/-- The part of an attachment attribute the engine reads. -/
structure Attachment where
  width : ℚ
  height : ℚ
deriving Repr, DecidableEq

/-- The font oracle surface used by attachment resolution. -/
structure Font where
  unitsPerEm : ℚ
  glyphForCodePoint : Nat → Nat

/-- The run attributes read by `resolveAttachments` / `resolveYOffset`. -/
structure GlyphRunAttributes where
  font : Font
  attachment : Option Attachment
  yOffset : ℚ

/-- A shaped glyph run (glyph ids paired with positions). -/
structure GlyphRun where
  glyphs : List Nat
  positions : List Position
  attributes : GlyphRunAttributes

/-- `resolveAttachments` on one glyph run: when the run carries an
attachment, every glyph equal to the font's U+FFFC glyph has its
`xAdvance` overwritten with the attachment width; without an attachment
the run is returned untouched (`if (!attachment) continue`). -/
def resolveAttachments (glyphRun : GlyphRun) : GlyphRun :=
  match glyphRun.attributes.attachment with
  | none => glyphRun
  | some attachment =>
    let objectReplacement := glyphRun.attributes.font.glyphForCodePoint 0xfffc
    { glyphRun with
      positions := (glyphRun.glyphs.zip glyphRun.positions).map fun gp =>
        if gp.1 = objectReplacement then { gp.2 with xAdvance := attachment.width }
        else gp.2 }

/-- C6.  With a non-null attachment, `resolveAttachments` sets the
`xAdvance` of every U+FFFC glyph's position to the attachment width
(keeping its other coordinates) and leaves every other position
unchanged. -/
theorem resolveAttachments_spec (run : GlyphRun) (att : Attachment)
    (hatt : run.attributes.attachment = some att)
    (hlen : run.glyphs.length = run.positions.length)
    (i : Nat) (hi : i < run.positions.length) :
    (resolveAttachments run).positions[i]? =
      if run.glyphs[i]? = some (run.attributes.font.glyphForCodePoint 0xfffc)
      then (run.positions[i]?).map fun p => { p with xAdvance := att.width }
      else run.positions[i]? := by
  obtain ⟨g, hg⟩ : ∃ g, run.glyphs[i]? = some g :=
    ⟨run.glyphs.get ⟨i, by omega⟩, List.getElem?_eq_getElem (by omega)⟩
  obtain ⟨p, hp⟩ : ∃ p, run.positions[i]? = some p :=
    ⟨run.positions.get ⟨i, hi⟩, List.getElem?_eq_getElem hi⟩
  have hzip : (run.glyphs.zip run.positions)[i]? = some (g, p) := by
    rw [List.getElem?_zip_eq_some]
    exact ⟨hg, hp⟩
  unfold resolveAttachments
  rw [hatt]
  simp only [List.getElem?_map, hzip, hg, hp, Option.map_some']
  by_cases hobj : g = run.attributes.font.glyphForCodePoint 0xfffc
  · rw [if_pos (by rw [hobj]), if_pos (by rw [hobj])]
  · rw [if_neg hobj, if_neg (by simpa using hobj)]

/-- Concrete one-attachment run used by the C6 witness: glyph 7 is the
font's U+FFFC glyph, glyph 3 is an ordinary letter. -/
def attachmentRunExample : GlyphRun where
  glyphs := [7, 3]
  positions := [⟨1, 0, 0, 0⟩, ⟨2, 0, 0, 0⟩]
  attributes :=
    { font := { unitsPerEm := 1000, glyphForCodePoint := fun _ => 7 }
      attachment := some ⟨42, 30⟩
      yOffset := 0 }

/-- C6 witness: on `attachmentRunExample`, position 0 (the U+FFFC glyph)
gets `xAdvance = 42` and position 1 is untouched. -/
theorem resolveAttachments_spec_witness :
    attachmentRunExample.attributes.attachment = some ⟨42, 30⟩ ∧
    attachmentRunExample.glyphs.length = attachmentRunExample.positions.length ∧
    (0 : Nat) < attachmentRunExample.positions.length ∧
    ((resolveAttachments attachmentRunExample).positions[0]? =
      if attachmentRunExample.glyphs[0]? =
          some (attachmentRunExample.attributes.font.glyphForCodePoint 0xfffc)
      then (attachmentRunExample.positions[0]?).map fun p =>
        { p with xAdvance := (42 : ℚ) }
      else attachmentRunExample.positions[0]?) :=
  ⟨rfl, rfl, by simp [attachmentRunExample],
    resolveAttachments_spec attachmentRunExample ⟨42, 30⟩ rfl rfl 0
      (by simp [attachmentRunExample])⟩

/-- C10.  With a null attachment, `resolveAttachments` returns the run
unchanged — including its positions — even if U+FFFC glyphs occur. -/
theorem resolveAttachments_null_attachment (run : GlyphRun)
    (h : run.attributes.attachment = none) :
    resolveAttachments run = run := by
  unfold resolveAttachments
  rw [h]

/-- Concrete run for the C10 witness: it contains the font's U+FFFC
glyph (id 7) but carries no attachment. -/
def nullAttachmentRunExample : GlyphRun where
  glyphs := [7]
  positions := [⟨5, 0, 0, 0⟩]
  attributes :=
    { font := { unitsPerEm := 1000, glyphForCodePoint := fun _ => 7 }
      attachment := none
      yOffset := 0 }

/-- C10 witness: `nullAttachmentRunExample` does contain the U+FFFC
glyph, yet `resolveAttachments` is the identity on it. -/
theorem resolveAttachments_null_attachment_witness :
    nullAttachmentRunExample.attributes.attachment = none ∧
    nullAttachmentRunExample.glyphs[0]? =
      some (nullAttachmentRunExample.attributes.font.glyphForCodePoint 0xfffc) ∧
    resolveAttachments nullAttachmentRunExample = nullAttachmentRunExample :=
  ⟨rfl, rfl, resolveAttachments_null_attachment nullAttachmentRunExample rfl⟩

/-! ## Justification engine (engines source: `factor`, `assign`,
`getFactors`, `justifyLine`, `justification`)

The pipeline invokes the engine with options that carry no
`expandCharFactor`/`shrinkCharFactor`/`expandWhitespaceFactor`/
`shrinkWhitespaceFactor` overrides, so `R.merge` leaves the default
factors unchanged; the embedding fixes the factors at those defaults. -/

def KASHIDA_PRIORITY : Nat := 0
def WHITESPACE_PRIORITY : Nat := 1
def LETTER_PRIORITY : Nat := 2
def NULL_PRIORITY : Nat := 3

/-- A per-glyph justification factor
`{ before, after, priority, unconstrained }`. -/
structure Factor where
  before : ℚ
  after : ℚ
  priority : Nat
  unconstrained : Bool
deriving Repr, DecidableEq

def EXPAND_WHITESPACE_FACTOR : Factor :=
  ⟨1 / 2, 1 / 2, WHITESPACE_PRIORITY, false⟩

def EXPAND_CHAR_FACTOR : Factor :=
  ⟨37 / 256, 37 / 256, LETTER_PRIORITY, false⟩

def SHRINK_WHITESPACE_FACTOR : Factor :=
  ⟨-11 / 256, -11 / 256, WHITESPACE_PRIORITY, false⟩

def SHRINK_CHAR_FACTOR : Factor :=
  ⟨-11 / 256, -11 / 256, LETTER_PRIORITY, false⟩

/-- `'GROW'` / `'SHRINK'` direction strings of the source. -/
inductive Direction where
  | GROW
  | SHRINK
deriving Repr, DecidableEq

def getCharFactor : Direction → Factor
  | Direction.GROW => EXPAND_CHAR_FACTOR
  | Direction.SHRINK => SHRINK_CHAR_FACTOR

def getWhitespaceFactor : Direction → Factor
  | Direction.GROW => EXPAND_WHITESPACE_FACTOR
  | Direction.SHRINK => SHRINK_WHITESPACE_FACTOR

/-- A glyph as the justification engine sees it.  Modelled from the spec:
the `glyph/isWhiteSpace` util is not under `src/`; per the spec a
whitespace glyph is one produced by the space character, and mark glyphs
carry `isMark`. -/
structure JGlyph where
  id : Nat
  isMark : Bool
  codePoint : Nat
deriving Repr, DecidableEq

/-- Modelled from the spec: whitespace glyph test used by `factor`
(the `glyph/isWhiteSpace` module is not under `src/`). -/
def isWhiteSpaceGlyph (g : JGlyph) : Bool := g.codePoint == 32

/-- A glyph run as the justification engine and line finalization see it. -/
structure JRun where
  glyphs : List JGlyph
  positions : List Position
deriving Repr, DecidableEq

/-- An axis-aligned rectangle. -/
structure Rect where
  x : ℚ
  y : ℚ
  width : ℚ
  height : ℚ
deriving Repr, DecidableEq

/-- A line fragment: rect/box, overflow accumulators and glyph runs. -/
structure LineFragment where
  rect : Rect
  overflowLeft : ℚ
  overflowRight : ℚ
  runs : List JRun
deriving Repr, DecidableEq

/-- The source reads the line rect under the name `box` inside the
justification engine. -/
def LineFragment.box (line : LineFragment) : Rect := line.rect

/-- Modelled from the spec: `advanceWidth` (module
`attributedString/advanceWidth`, not under `src/`) — the sum of the
`xAdvance` of every glyph position of the line. -/
def advanceWidth (line : LineFragment) : ℚ :=
  (line.runs.map fun r => (r.positions.map Position.xAdvance).sum).sum

/-- Zero the `after` component of the most recently emitted factor
(`factors[index - 1].after = 0` in the source; the accumulator is kept
reversed, so its head is the previous factor). -/
def zeroAfterHead : List Factor → List Factor
  | [] => []
  | f :: t => { f with after := 0 } :: t

/-- The indexed loop body of `factor`: walks `(index, glyph)` pairs,
keeping the already-built factors reversed in `acc` so the previous
factor can be patched in place.  The `[]` case under a mark with
`index > 0` is unreachable (the accumulator then holds `index` entries). -/
def factorAux (charFactor whitespaceFactor : Factor) (n : Nat) :
    List (Nat × JGlyph) → List Factor → List Factor
  | [], acc => acc.reverse
  | (idx, g) :: rest, acc =>
    if isWhiteSpaceGlyph g then
      if idx = n - 1 then
        factorAux charFactor whitespaceFactor n rest
          ({ whitespaceFactor with before := 0 } ::
            (if 0 < idx then zeroAfterHead acc else acc))
      else
        factorAux charFactor whitespaceFactor n rest (whitespaceFactor :: acc)
    else if g.isMark && decide (0 < idx) then
      match acc with
      | prev :: accTail =>
        factorAux charFactor whitespaceFactor n rest
          ({ prev with before := 0 } :: { prev with after := 0 } :: accTail)
      | [] => factorAux charFactor whitespaceFactor n rest (charFactor :: acc)
    else
      factorAux charFactor whitespaceFactor n rest (charFactor :: acc)

/-- `factor` from the justification engine: assign each glyph its
stretch/shrink factor (whitespace, mark-inherits-previous, or letter). -/
def factor (direction : Direction) (glyphs : List JGlyph) : List Factor :=
  factorAux (getCharFactor direction) (getWhitespaceFactor direction)
    glyphs.length glyphs.enum []

/-- `R.adjust 0`: patch the first element. -/
def adjustFirst (f : Factor → Factor) : List Factor → List Factor
  | [] => []
  | x :: xs => f x :: xs

/-- `R.adjust (-1)`: patch the last element. -/
def adjustLast (f : Factor → Factor) (l : List Factor) : List Factor :=
  (adjustFirst f l.reverse).reverse

/-- `getFactors`: per-run factors concatenated, then `before` of the
first glyph and `after` of the last glyph forced to zero. -/
def getFactors (gap : ℚ) (line : LineFragment) : List Factor :=
  let direction := if 0 < gap then Direction.GROW else Direction.SHRINK
  adjustLast (fun f => { f with after := 0 })
    (adjustFirst (fun f => { f with before := 0 })
      ((line.runs.map fun r => factor direction r.glyphs).flatten))

def factorSum (f : Factor) : ℚ := f.before + f.after

/-- `priorities[p]` after the first summation loop of `assign`. -/
def prioritySumsOf (factors : List Factor) : Nat → ℚ := fun p =>
  ((factors.filter fun f => decide (f.priority = p)).map factorSum).sum

/-- `unconstrained[p]` after the first summation loop of `assign`. -/
def unconstrainedSumsOf (factors : List Factor) : Nat → ℚ := fun p =>
  ((factors.filter fun f => decide (f.priority = p) && f.unconstrained).map
    factorSum).sum

/-- `total` in `assign`. -/
def totalOf (factors : List Factor) : ℚ := (factors.map factorSum).sum

/-- Pointwise array write `arr[p] = v`. -/
def updateFn (f : Nat → ℚ) (p : Nat) (v : ℚ) : Nat → ℚ :=
  fun q => if q = p then v else f q

/-- The post-loop zero-out `for (p = priority + 1; p <= NULL_PRIORITY; p++)`:
after stopping at a priority, all later priorities are zeroed. -/
def zeroOn (ps : List Nat) (f : Nat → ℚ) : Nat → ℚ :=
  fun q => if q ∈ ps then 0 else f q

/-- `highestPriority`/`highestPrioritySum`: recorded at the first
priority with a non-zero factor sum. -/
def updateHp : Option (Nat × ℚ) → Nat → ℚ → Option (Nat × ℚ)
  | none, p, s => some (p, s)
  | some x, _, _ => some x

/-- The mutable state of the priority-selection loop of `assign`:
the `priorities` array (re-used as scales), the `unconstrained` array,
`remainingGap` and the highest-priority record. -/
structure LoopState where
  scale : Nat → ℚ
  unc : Nat → ℚ
  rem : ℚ
  hp : Option (Nat × ℚ)

/-- The priority-selection loop of `assign` over the remaining priority
list.  Skips zero sums; when the remaining gap is covered, scales that
priority by `remainingGap / prioritySum` and zeroes the rest; otherwise
uses the priority fully (scale 1), subtracts its sum, and lets
unconstrained glyphs absorb the remainder when present. -/
def assignLoop : List Nat → LoopState → LoopState
  | [], st => st
  | p :: ps, st =>
    if st.scale p = 0 then assignLoop ps st
    else if |st.rem| ≤ |st.scale p| then
      ⟨zeroOn ps (updateFn st.scale p (st.rem / st.scale p)),
        zeroOn ps (updateFn st.unc p 0), 0, updateHp st.hp p (st.scale p)⟩
    else if st.unc p = 0 then
      assignLoop ps
        ⟨updateFn st.scale p 1, st.unc, st.rem - st.scale p,
          updateHp st.hp p (st.scale p)⟩
    else
      ⟨zeroOn ps (updateFn st.scale p 1),
        zeroOn ps (updateFn st.unc p ((st.rem - st.scale p) / st.unc p)), 0,
        updateHp st.hp p (st.scale p)⟩

/-- The distance-construction loop of `assign`: each glyph receives its
`after` share plus the next glyph's `before` share (and the analogous
unconstrained shares when the glyph is unconstrained). -/
def distances (scale unc : Nat → ℚ) : List Factor → List ℚ
  | [] => []
  | [f] =>
    [f.after * scale f.priority +
      (if f.unconstrained then f.after * unc f.priority else 0)]
  | f :: g :: rest =>
    (f.after * scale f.priority + g.before * scale g.priority +
      (if f.unconstrained
        then f.after * unc f.priority + g.before * unc g.priority else 0)) ::
    distances scale unc (g :: rest)

/-- The post-loop step `if (remainingGap > 0 && highestPriority > -1)`:
assign the leftover space to the highest priority seen, violating its
factors. -/
def overdrive (gap total : ℚ) (res : LoopState) : Nat → ℚ :=
  match res.hp with
  | some (h, hs) =>
    if 0 < res.rem
    then updateFn res.scale h ((hs + (gap - total)) / hs)
    else res.scale
  | none => res.scale

/-- `assign` from the justification engine: distribute `gap` over the
factors by the prioritized model, with the final overdrive of the
highest seen priority when slack remains. -/
def assign (gap : ℚ) (factors : List Factor) : List ℚ :=
  let res := assignLoop [0, 1, 2, 3]
    ⟨prioritySumsOf factors, unconstrainedSumsOf factors, gap, none⟩
  distances (overdrive gap (totalOf factors) res) res.unc factors

/-- Add each distance to the matching position's `xAdvance`
(`position.xAdvance += distances[index++]`); surplus positions beyond
the distance list are left unchanged (the theorems only use matching
lengths, where this case does not arise). -/
def applyDistances : List ℚ → List Position → List Position
  | d :: ds, p :: ps => { p with xAdvance := p.xAdvance + d } :: applyDistances ds ps
  | _, ps => ps

/-- `justifyLine`: walk the runs, consuming distances in order. -/
def justifyRuns : List ℚ → List JRun → List JRun
  | _, [] => []
  | ds, r :: rs =>
    { r with positions := applyDistances (ds.take r.positions.length) r.positions } ::
      justifyRuns (ds.drop r.positions.length) rs

def justifyLine (dists : List ℚ) (line : LineFragment) : LineFragment :=
  { line with runs := justifyRuns dists line.runs }

/-- `justification`: compute the gap `box.width - advanceWidth`; on an
exact fit return with the line untouched, otherwise assign distances
over the line's factors and add them to the advances. -/
def justification (line : LineFragment) : LineFragment :=
  if line.box.width - advanceWidth line = 0 then line
  else
    justifyLine
      (assign (line.box.width - advanceWidth line)
        (getFactors (line.box.width - advanceWidth line) line))
      line

/-- C9.  When the line's box width equals its advance width the gap is
zero and `justification` returns immediately: every glyph position is
left unchanged. -/
theorem justification_exact_fit (line : LineFragment)
    (h : advanceWidth line = line.box.width) :
    justification line = line := by
  unfold justification
  rw [h]
  simp

/-- Concrete exactly-fitting line for the C9 witness. -/
def exactFitLineExample : LineFragment where
  rect := ⟨0, 0, 5, 10⟩
  overflowLeft := 0
  overflowRight := 0
  runs := [{ glyphs := [⟨1, false, 97⟩], positions := [⟨5, 0, 0, 0⟩] }]

/-- C9 witness: a one-glyph line of advance 5 in a box of width 5 is
returned untouched. -/
theorem justification_exact_fit_witness :
    advanceWidth exactFitLineExample = exactFitLineExample.box.width ∧
    justification exactFitLineExample = exactFitLineExample := by
  have h : advanceWidth exactFitLineExample = exactFitLineExample.box.width := by
    norm_num [advanceWidth, exactFitLineExample, LineFragment.box]
  exact ⟨h, justification_exact_fit exactFitLineExample h⟩

/-- Invariant of the priority-selection loop: outside the remaining
priorities the scales are untouched; the gap consumed by the processed
priorities equals the drop in `remainingGap`; the remaining gap never
turns negative when it starts positive; when gap remains after the loop,
every non-zero priority was fully used (scale 1) and the recorded
highest priority is a non-zero one at scale 1. -/
theorem assignLoop_spec (sums : Nat → ℚ) :
    ∀ (ps : List Nat) (st : LoopState),
      ps.Nodup →
      (∀ q ∈ ps, st.scale q = sums q) →
      (∀ q, st.unc q = 0) →
      0 < st.rem →
      (∀ h hs, st.hp = some (h, hs) →
        hs = sums h ∧ hs ≠ 0 ∧ st.scale h = 1 ∧ h ∉ ps) →
      (∀ q, q ∉ ps → (assignLoop ps st).scale q = st.scale q) ∧
      (∀ q, (assignLoop ps st).unc q = 0) ∧
      (ps.map fun q => sums q * (assignLoop ps st).scale q).sum
        = st.rem - (assignLoop ps st).rem ∧
      0 ≤ (assignLoop ps st).rem ∧
      (0 < (assignLoop ps st).rem →
        (∀ q ∈ ps, sums q ≠ 0 → (assignLoop ps st).scale q = 1) ∧
        (∀ h hs, (assignLoop ps st).hp = some (h, hs) →
          hs = sums h ∧ hs ≠ 0 ∧ (assignLoop ps st).scale h = 1 ∧
            (st.hp = some (h, hs) ∨ h ∈ ps))) ∧
      ((assignLoop ps st).hp = none → st.hp = none ∧ ∀ q ∈ ps, sums q = 0) := by
  intro ps
  induction ps with
  | nil =>
    intro st _ _ hu hr hhp
    refine ⟨fun q _ => rfl, hu, by simp [assignLoop], le_of_lt hr, ?_, ?_⟩
    · intro _
      refine ⟨fun q hq _ => absurd hq (List.not_mem_nil q), ?_⟩
      intro h hs hhps
      obtain ⟨e1, e2, e3, _⟩ := hhp h hs hhps
      exact ⟨e1, e2, e3, Or.inl hhps⟩
    · intro hn
      exact ⟨hn, fun q hq => absurd hq (List.not_mem_nil q)⟩
  | cons p ps ih =>
    intro st hnd hsc hu hr hhp
    have hpnotin : p ∉ ps := (List.nodup_cons.mp hnd).1
    have hndps : ps.Nodup := (List.nodup_cons.mp hnd).2
    have hsp : st.scale p = sums p := hsc p (List.mem_cons_self _ _)
    by_cases hs0 : st.scale p = 0
    · -- prioritySum is zero: the loop skips this priority entirely
      have heq : assignLoop (p :: ps) st = assignLoop ps st := by
        simp only [assignLoop]
        rw [if_pos hs0]
      have hsums0 : sums p = 0 := by rw [← hsp]; exact hs0
      obtain ⟨iA, iU, iB, iR, iC, iE⟩ := ih st hndps
        (fun q hq => hsc q (List.mem_cons_of_mem _ hq)) hu hr
        (fun h hs hh => by
          obtain ⟨e1, e2, e3, e4⟩ := hhp h hs hh
          exact ⟨e1, e2, e3, fun hm => e4 (List.mem_cons_of_mem _ hm)⟩)
      rw [heq]
      refine ⟨fun q hq => iA q (fun hm => hq (List.mem_cons_of_mem _ hm)),
        iU, ?_, iR, ?_, ?_⟩
      · simp only [List.map_cons, List.sum_cons, hsums0, zero_mul, zero_add]
        exact iB
      · intro hpos
        obtain ⟨c1, c2⟩ := iC hpos
        refine ⟨?_, ?_⟩
        · intro q hq hqne
          rcases List.mem_cons.1 hq with rfl | hq
          · exact absurd hsums0 hqne
          · exact c1 q hq hqne
        · intro h hs hh
          obtain ⟨e1, e2, e3, e4⟩ := c2 h hs hh
          refine ⟨e1, e2, e3, ?_⟩
          rcases e4 with e4 | e4
          · exact Or.inl e4
          · exact Or.inr (List.mem_cons_of_mem _ e4)
      · intro hn
        obtain ⟨e1, e2⟩ := iE hn
        refine ⟨e1, ?_⟩
        intro q hq
        rcases List.mem_cons.1 hq with rfl | hq
        · exact hsums0
        · exact e2 q hq
    · by_cases hcov : |st.rem| ≤ |st.scale p|
      · -- the remaining gap is covered at this priority: scale and stop
        have heq : assignLoop (p :: ps) st =
            ⟨zeroOn ps (updateFn st.scale p (st.rem / st.scale p)),
              zeroOn ps (updateFn st.unc p 0), 0, updateHp st.hp p (st.scale p)⟩ := by
          simp only [assignLoop]
          rw [if_neg hs0, if_pos hcov]
        rw [heq]
        refine ⟨?_, ?_, ?_, le_rfl, ?_, ?_⟩
        · intro q hq
          have hq1 : q ≠ p := fun hc => hq (hc ▸ List.mem_cons_self _ _)
          have hq2 : q ∉ ps := fun hm => hq (List.mem_cons_of_mem _ hm)
          simp [zeroOn, updateFn, hq1, hq2]
        · intro q
          by_cases hq2 : q ∈ ps
          · simp [zeroOn, hq2]
          · by_cases hq1 : q = p
            · simp [zeroOn, updateFn, hq1, hq2]
            · simp [zeroOn, updateFn, hq1, hq2, hu q]
        · simp only [List.map_cons, List.sum_cons]
          have hvp : zeroOn ps (updateFn st.scale p (st.rem / st.scale p)) p =
              st.rem / st.scale p := by
            simp [zeroOn, updateFn, hpnotin]
          rw [hvp]
          have hrest : (ps.map fun q =>
              sums q * zeroOn ps (updateFn st.scale p (st.rem / st.scale p)) q).sum = 0 := by
            apply List.sum_eq_zero
            intro x hx
            obtain ⟨q, hq, rfl⟩ := List.mem_map.1 hx
            simp [zeroOn, hq]
          rw [hrest, ← hsp]
          field_simp
        · intro hpos
          exact absurd hpos (by norm_num)
        · intro hn
          exfalso
          cases hhpst : st.hp with
          | none => rw [hhpst] at hn; simp [updateHp] at hn
          | some x => rw [hhpst] at hn; simp [updateHp] at hn
      · -- the gap exceeds this priority: use it fully and continue
        have hu0 : st.unc p = 0 := hu p
        have heq : assignLoop (p :: ps) st = assignLoop ps
            ⟨updateFn st.scale p 1, st.unc, st.rem - st.scale p,
              updateHp st.hp p (st.scale p)⟩ := by
          simp only [assignLoop]
          rw [if_neg hs0, if_neg hcov, if_pos hu0]
        have habs : |st.scale p| < st.rem := by
          have h1 : |st.rem| = st.rem := abs_of_pos hr
          have h2 : ¬ |st.rem| ≤ |st.scale p| := hcov
          rw [h1] at h2
          exact lt_of_not_le h2
        have hr' : 0 < st.rem - st.scale p := by
          have : st.scale p ≤ |st.scale p| := le_abs_self _
          linarith
        have hsc' : ∀ q ∈ ps,
            (⟨updateFn st.scale p 1, st.unc, st.rem - st.scale p,
              updateHp st.hp p (st.scale p)⟩ : LoopState).scale q = sums q := by
          intro q hq
          have hqp : q ≠ p := fun hc => hpnotin (hc ▸ hq)
          simp only [updateFn, if_neg hqp]
          exact hsc q (List.mem_cons_of_mem _ hq)
        have hhp' : ∀ h hs,
            (⟨updateFn st.scale p 1, st.unc, st.rem - st.scale p,
              updateHp st.hp p (st.scale p)⟩ : LoopState).hp = some (h, hs) →
            hs = sums h ∧ hs ≠ 0 ∧ updateFn st.scale p 1 h = 1 ∧ h ∉ ps := by
          intro h hs hh
          cases hhpst : st.hp with
          | none =>
            rw [hhpst] at hh
            simp only [updateHp, Option.some.injEq, Prod.mk.injEq] at hh
            obtain ⟨rfl, rfl⟩ := hh
            exact ⟨hsp, hs0, by simp [updateFn], hpnotin⟩
          | some x =>
            rw [hhpst] at hh
            simp only [updateHp] at hh
            obtain ⟨e1, e2, e3, e4⟩ := hhp h hs (hhpst.trans hh)
            have hhp2 : h ≠ p := fun hc => e4 (hc ▸ List.mem_cons_self _ _)
            refine ⟨e1, e2, ?_, fun hm => e4 (List.mem_cons_of_mem _ hm)⟩
            simp only [updateFn, if_neg hhp2]
            exact e3
        obtain ⟨iA, iU, iB, iR, iC, iE⟩ := ih _ hndps hsc' hu hr' hhp'
        rw [heq]
        have hscp1 : (assignLoop ps
            ⟨updateFn st.scale p 1, st.unc, st.rem - st.scale p,
              updateHp st.hp p (st.scale p)⟩).scale p = 1 := by
          rw [iA p hpnotin]
          simp [updateFn]
        refine ⟨?_, iU, ?_, iR, ?_, ?_⟩
        · intro q hq
          have hq1 : q ≠ p := fun hc => hq (hc ▸ List.mem_cons_self _ _)
          have hq2 : q ∉ ps := fun hm => hq (List.mem_cons_of_mem _ hm)
          rw [iA q hq2]
          simp [updateFn, hq1]
        · simp only [List.map_cons, List.sum_cons, hscp1, mul_one, iB]
          rw [hsp]
          ring
        · intro hpos
          obtain ⟨c1, c2⟩ := iC hpos
          refine ⟨?_, ?_⟩
          · intro q hq hqne
            rcases List.mem_cons.1 hq with rfl | hq
            · exact hscp1
            · exact c1 q hq hqne
          · intro h hs hh
            obtain ⟨e1, e2, e3, e4⟩ := c2 h hs hh
            refine ⟨e1, e2, e3, ?_⟩
            rcases e4 with e4 | e4
            · cases hhpst : st.hp with
              | none =>
                rw [hhpst] at e4
                simp only [updateHp, Option.some.injEq, Prod.mk.injEq] at e4
                obtain ⟨rfl, -⟩ := e4
                exact Or.inr (List.mem_cons_self _ _)
              | some x =>
                rw [hhpst] at e4
                simp only [updateHp] at e4
                exact Or.inl e4
            · exact Or.inr (List.mem_cons_of_mem _ e4)
        · intro hn
          obtain ⟨e1, _⟩ := iE hn
          exfalso
          cases hhpst : st.hp with
          | none => rw [hhpst] at e1; simp [updateHp] at e1
          | some x => rw [hhpst] at e1; simp [updateHp] at e1

theorem prioritySums_cons (f : Factor) (fs : List Factor) (p : Nat) :
    prioritySumsOf (f :: fs) p =
      (if f.priority = p then factorSum f else 0) + prioritySumsOf fs p := by
  unfold prioritySumsOf
  by_cases h : f.priority = p
  · simp [List.filter_cons, h]
  · simp [List.filter_cons, h]

theorem sum_group4 (scale : Nat → ℚ) :
    ∀ (fs : List Factor), (∀ f ∈ fs, f.priority < 4) →
      (fs.map fun x => factorSum x * scale x.priority).sum =
        prioritySumsOf fs 0 * scale 0 + prioritySumsOf fs 1 * scale 1 +
          prioritySumsOf fs 2 * scale 2 + prioritySumsOf fs 3 * scale 3 := by
  intro fs
  induction fs with
  | nil => intro _; simp [prioritySumsOf]
  | cons f fs ih =>
    intro h
    have hf4 : f.priority < 4 := h f (List.mem_cons_self _ _)
    have ihh := ih fun g hg => h g (List.mem_cons_of_mem _ hg)
    simp only [List.map_cons, List.sum_cons, ihh, prioritySums_cons]
    have h03 : f.priority = 0 ∨ f.priority = 1 ∨ f.priority = 2 ∨ f.priority = 3 := by
      omega
    rcases h03 with h0 | h0 | h0 | h0 <;> rw [h0] <;> simp <;> ring

theorem totalOf_eq_sum4 (fs : List Factor) (h : ∀ f ∈ fs, f.priority < 4) :
    totalOf fs = prioritySumsOf fs 0 + prioritySumsOf fs 1 +
      prioritySumsOf fs 2 + prioritySumsOf fs 3 := by
  have hg := sum_group4 (fun _ => 1) fs h
  simp only [mul_one] at hg
  unfold totalOf
  exact hg

theorem distances_sum_no_unconstrained (scale unc : Nat → ℚ) :
    ∀ (fs : List Factor) (f : Factor),
      (∀ x ∈ f :: fs, x.unconstrained = false) →
      (distances scale unc (f :: fs)).sum =
        ((f :: fs).map fun x => factorSum x * scale x.priority).sum -
          f.before * scale f.priority := by
  intro fs
  induction fs with
  | nil =>
    intro f h
    have hf := h f (List.mem_cons_self _ _)
    simp [distances, hf, factorSum]
    ring
  | cons g rest ih =>
    intro f h
    have hf := h f (List.mem_cons_self _ _)
    have ihg := ih g fun x hx => h x (List.mem_cons_of_mem _ hx)
    simp only [distances, hf, Bool.false_eq_true, if_false, List.sum_cons, ihg,
      List.map_cons, factorSum]
    ring

theorem unconstrainedSums_zero (fs : List Factor)
    (h : ∀ f ∈ fs, f.unconstrained = false) (q : Nat) :
    unconstrainedSumsOf fs q = 0 := by
  unfold unconstrainedSumsOf
  have hnil : fs.filter (fun f => decide (f.priority = q) && f.unconstrained) = [] := by
    rw [List.filter_eq_nil_iff]
    intro f hf
    simp [h f hf]
  rw [hnil]
  simp

/-- C3 amended.  With a positive gap (the grow direction), leading
`before` forced to zero as `getFactors` produces, priorities in range,
no unconstrained factor, and a non-zero factor sum at some priority, the
distances returned by `assign` sum to exactly the gap — including the
overdrive case where the gap exceeds all priorities' capacity. -/
theorem assign_sum_eq_gap (gap : ℚ) (factors : List Factor)
    (hgap : 0 < gap)
    (hpri : ∀ f ∈ factors, f.priority < 4)
    (huncon : ∀ f ∈ factors, f.unconstrained = false)
    (hhead : ∀ f, factors.head? = some f → f.before = 0)
    (hsome : ∃ p, p < 4 ∧ prioritySumsOf factors p ≠ 0) :
    (assign gap factors).sum = gap := by
  obtain ⟨p, hp4, hpne⟩ := hsome
  cases factors with
  | nil => exact absurd (by simp [prioritySumsOf]) hpne
  | cons f fs =>
    have hf0 : f.before = 0 := hhead f rfl
    have hmem4 : p ∈ ([0, 1, 2, 3] : List Nat) := by
      have : p = 0 ∨ p = 1 ∨ p = 2 ∨ p = 3 := by omega
      rcases this with rfl | rfl | rfl | rfl <;> decide
    have huncs : ∀ q, unconstrainedSumsOf (f :: fs) q = 0 :=
      unconstrainedSums_zero _ huncon
    obtain ⟨A, U, B, R, C, E⟩ := assignLoop_spec (prioritySumsOf (f :: fs))
      [0, 1, 2, 3]
      ⟨prioritySumsOf (f :: fs), unconstrainedSumsOf (f :: fs), gap, none⟩
      (by norm_num) (fun q _ => rfl) huncs hgap
      (fun h hs hh => by simp at hh)
    set r := assignLoop [0, 1, 2, 3]
      ⟨prioritySumsOf (f :: fs), unconstrainedSumsOf (f :: fs), gap, none⟩ with hrdef
    have hB4 : prioritySumsOf (f :: fs) 0 * r.scale 0 +
        prioritySumsOf (f :: fs) 1 * r.scale 1 +
        prioritySumsOf (f :: fs) 2 * r.scale 2 +
        prioritySumsOf (f :: fs) 3 * r.scale 3 = gap - r.rem := by
      have hB := B
      simp only [List.map_cons, List.map_nil, List.sum_cons, List.sum_nil] at hB
      linarith
    cases hhp_cases : r.hp with
    | none =>
      obtain ⟨-, hall⟩ := E hhp_cases
      exact absurd (hall p hmem4) hpne
    | some hpair =>
      obtain ⟨h, hs⟩ := hpair
      by_cases hrem : 0 < r.rem
      · -- overdrive: the whole loop ran out, the highest priority absorbs
        obtain ⟨c1, c2⟩ := C hrem
        obtain ⟨e1, e2, e3, e4⟩ := c2 h hs hhp_cases
        have he4 : h ∈ ([0, 1, 2, 3] : List Nat) := by
          rcases e4 with e4 | e4
          · simp at e4
          · exact e4
        have hassign : assign gap (f :: fs) =
            distances (overdrive gap (totalOf (f :: fs)) r) r.unc (f :: fs) := rfl
        have hover : overdrive gap (totalOf (f :: fs)) r =
            updateFn r.scale h ((hs + (gap - totalOf (f :: fs))) / hs) := by
          unfold overdrive
          rw [hhp_cases]
          simp [hrem]
        rw [hassign, hover,
          distances_sum_no_unconstrained _ _ fs f huncon,
          sum_group4 _ _ hpri, hf0]
        have hterm : ∀ q, q ∈ ([0, 1, 2, 3] : List Nat) →
            prioritySumsOf (f :: fs) q * r.scale q = prioritySumsOf (f :: fs) q := by
          intro q hq
          by_cases hq0 : prioritySumsOf (f :: fs) q = 0
          · simp [hq0]
          · rw [c1 q hq hq0]; ring
        have ht0 := hterm 0 (by decide)
        have ht1 := hterm 1 (by decide)
        have ht2 := hterm 2 (by decide)
        have ht3 := hterm 3 (by decide)
        have htot := totalOf_eq_sum4 (f :: fs) hpri
        have hv : prioritySumsOf (f :: fs) h *
            ((hs + (gap - totalOf (f :: fs))) / hs) =
            prioritySumsOf (f :: fs) h + gap - totalOf (f :: fs) := by
          rw [← e1]
          field_simp
          ring
        have hupdh : updateFn r.scale h ((hs + (gap - totalOf (f :: fs))) / hs) h =
            (hs + (gap - totalOf (f :: fs))) / hs := by simp [updateFn]
        have hupd : ∀ q, q ≠ h →
            updateFn r.scale h ((hs + (gap - totalOf (f :: fs))) / hs) q =
              r.scale q := by
          intro q hq
          simp [updateFn, hq]
        simp only [hf0, zero_mul, sub_zero]
        have hh03 : h = 0 ∨ h = 1 ∨ h = 2 ∨ h = 3 := by
          simpa using he4
        rcases hh03 with rfl | rfl | rfl | rfl
        · rw [hupdh, hupd 1 (by norm_num), hupd 2 (by norm_num),
            hupd 3 (by norm_num), ht1, ht2, ht3, hv]
          linarith [htot]
        · rw [hupd 0 (by norm_num), hupdh, hupd 2 (by norm_num),
            hupd 3 (by norm_num), ht0, ht2, ht3, hv]
          linarith [htot]
        · rw [hupd 0 (by norm_num), hupd 1 (by norm_num), hupdh,
            hupd 3 (by norm_num), ht0, ht1, ht3, hv]
          linarith [htot]
        · rw [hupd 0 (by norm_num), hupd 1 (by norm_num), hupd 2 (by norm_num),
            hupdh, ht0, ht1, ht2, hv]
          linarith [htot]
      · -- the loop covered the gap exactly; no overdrive
        have hrem0 : r.rem = 0 := le_antisymm (not_lt.mp hrem) R
        have hassign : assign gap (f :: fs) =
            distances (overdrive gap (totalOf (f :: fs)) r) r.unc (f :: fs) := rfl
        have hover : overdrive gap (totalOf (f :: fs)) r = r.scale := by
          unfold overdrive
          rw [hhp_cases]
          simp [hrem]
        rw [hassign, hover,
          distances_sum_no_unconstrained _ _ fs f huncon,
          sum_group4 _ _ hpri, hf0]
        rw [hrem0] at hB4
        linarith

/-- Factors as `getFactors` yields them for a grow line `"a b"` (letter,
space, letter): the first `before` and last `after` are zeroed. -/
def justifyFactorsExample : List Factor :=
  [⟨0, 37 / 256, 2, false⟩, ⟨1 / 2, 1 / 2, 1, false⟩, ⟨37 / 256, 0, 2, false⟩]

/-- Concrete evaluation of `assign` on the `"a b"` factors with gap 10:
whitespace capacity (priority sum 1) and letter capacity (37/128) are
exhausted, and the overdrive hands the slack back to the whitespace
priority; the resulting distances are `[5, 5, 0]`. -/
theorem assign_justifyFactorsExample :
    assign 10 justifyFactorsExample = [5, 5, 0] := by
  norm_num [assign, assignLoop, overdrive, distances, prioritySumsOf,
    unconstrainedSumsOf, totalOf, factorSum, justifyFactorsExample, updateFn,
    updateHp, zeroOn, List.filter_cons, abs_of_pos, abs_of_nonneg]

/-- C3 witness: the amended conservation theorem applied to the `"a b"`
factors at gap 10. -/
theorem assign_sum_eq_gap_witness :
    (0 : ℚ) < 10 ∧
    (∀ f ∈ justifyFactorsExample, f.priority < 4) ∧
    (∀ f ∈ justifyFactorsExample, f.unconstrained = false) ∧
    (∀ f, justifyFactorsExample.head? = some f → f.before = 0) ∧
    (1 < 4 ∧ prioritySumsOf justifyFactorsExample 1 ≠ 0) ∧
    (assign 10 justifyFactorsExample).sum = 10 := by
  have hp4 : ∀ f ∈ justifyFactorsExample, f.priority < 4 := by
    intro f hf
    simp only [justifyFactorsExample, List.mem_cons, List.not_mem_nil, or_false] at hf
    rcases hf with rfl | rfl | rfl <;> norm_num
  have hun : ∀ f ∈ justifyFactorsExample, f.unconstrained = false := by
    intro f hf
    simp only [justifyFactorsExample, List.mem_cons, List.not_mem_nil, or_false] at hf
    rcases hf with rfl | rfl | rfl <;> rfl
  have hhd : ∀ f, justifyFactorsExample.head? = some f → f.before = 0 := by
    intro f hf
    simp only [justifyFactorsExample, List.head?_cons, Option.some.injEq] at hf
    rw [← hf]
  have hs1 : prioritySumsOf justifyFactorsExample 1 ≠ 0 := by
    norm_num [prioritySumsOf, justifyFactorsExample, factorSum, List.filter_cons]
  exact ⟨by norm_num, hp4, hun, hhd, ⟨by norm_num, hs1⟩,
    assign_sum_eq_gap 10 justifyFactorsExample (by norm_num) hp4 hun hhd ⟨1, by norm_num, hs1⟩⟩

/-- Shrink factors of a two-letter line (as `getFactors` yields them for
a negative gap): both letters at LETTER priority with the shrink factor,
boundary components zeroed. -/
def shrinkFactorsExample : List Factor :=
  [⟨0, -(11 / 256), 2, false⟩, ⟨-(11 / 256), 0, 2, false⟩]

/-- C3 counterexample: in the shrink direction, when the gap exceeds the
total shrink capacity, the loop exhausts every priority and — since the
overdrive only fires for positive leftover gap — the distances sum to
the capacity `-(11/128)`, not to the gap `-1`: `assign` does not conserve
the gap for every line with a non-zero priority sum. -/
theorem assign_shrink_claim_false :
    prioritySumsOf shrinkFactorsExample 2 ≠ 0 ∧
    (assign (-1) shrinkFactorsExample).sum = -(11 / 128) ∧
    (assign (-1) shrinkFactorsExample).sum ≠ -1 := by
  refine ⟨?_, ?_, ?_⟩
  · norm_num [prioritySumsOf, shrinkFactorsExample, factorSum, List.filter_cons]
  · norm_num [assign, assignLoop, overdrive, distances, prioritySumsOf,
      unconstrainedSumsOf, totalOf, factorSum, shrinkFactorsExample, updateFn,
      updateHp, zeroOn, List.filter_cons, abs_of_pos, abs_of_nonneg,
      abs_of_nonpos, abs_of_neg]
  · norm_num [assign, assignLoop, overdrive, distances, prioritySumsOf,
      unconstrainedSumsOf, totalOf, factorSum, shrinkFactorsExample, updateFn,
      updateHp, zeroOn, List.filter_cons, abs_of_pos, abs_of_nonneg,
      abs_of_nonpos, abs_of_neg]

/-- A line `"a b"` — two one-letter words separated by one whitespace
glyph — with advances `3, 2, 3` in a box of width 18, so the
justification gap is exactly 10. -/
def twoWordLineExample : LineFragment where
  rect := ⟨0, 0, 18, 10⟩
  overflowLeft := 0
  overflowRight := 0
  runs := [{ glyphs := [⟨1, false, 97⟩, ⟨2, false, 32⟩, ⟨3, false, 98⟩],
             positions := [⟨3, 0, 0, 0⟩, ⟨2, 0, 0, 0⟩, ⟨3, 0, 0, 0⟩] }]

theorem twoWordLine_getFactors :
    getFactors 10 twoWordLineExample = justifyFactorsExample := by
  norm_num [getFactors, twoWordLineExample, factor, factorAux, adjustFirst,
    adjustLast, getCharFactor, getWhitespaceFactor, EXPAND_CHAR_FACTOR,
    EXPAND_WHITESPACE_FACTOR, WHITESPACE_PRIORITY, LETTER_PRIORITY,
    isWhiteSpaceGlyph, zeroAfterHead, List.enum, List.enumFrom,
    justifyFactorsExample]

/-- End-to-end evaluation of `justification` on the gap-10 two-word
line: the three advances `3, 2, 3` become `8, 7, 3`. -/
theorem justification_two_words_eval :
    (justification twoWordLineExample).runs.map
      (fun r => r.positions.map Position.xAdvance) = [[8, 7, 3]] := by
  have h1 : twoWordLineExample.box.width - advanceWidth twoWordLineExample = 10 := by
    norm_num [advanceWidth, twoWordLineExample, LineFragment.box]
  unfold justification
  rw [h1, if_neg (by norm_num : ¬ (10 : ℚ) = 0), twoWordLine_getFactors,
    assign_justifyFactorsExample]
  norm_num [justifyLine, justifyRuns, applyDistances, twoWordLineExample]

/-- C4 counterexample: on the gap-10 two-word line, the claim — letters
unchanged and the whitespace advance up by `10 ± 1` — is false: the
first letter's advance moves from 3 to 8, and the whitespace glyph gains
only 5. -/
theorem justification_two_words_claim_false :
    ¬ ∃ d : ℚ, 9 ≤ d ∧ d ≤ 11 ∧
      (justification twoWordLineExample).runs.map
        (fun r => r.positions.map Position.xAdvance) = [[3, 2 + d, 3]] := by
  rintro ⟨d, h9, h11, heq⟩
  rw [justification_two_words_eval] at heq
  norm_num at heq

/-- C4 amended: with gap 10, the whitespace priority's capacity (sum 1)
is far below the gap, so after both priorities are exhausted the
overdrive returns the slack to the whitespace priority: the whitespace
glyph's advance grows by 5, the letter before it also grows by 5 (its
distance includes the whitespace glyph's `before` share), the trailing
letter is unchanged, and the whole gap is conserved: the line's advance
width becomes exactly the box width. -/
theorem justification_two_words_amended :
    (justification twoWordLineExample).runs.map
      (fun r => r.positions.map Position.xAdvance) = [[8, 7, 3]] ∧
    advanceWidth (justification twoWordLineExample) =
      twoWordLineExample.box.width := by
  refine ⟨justification_two_words_eval, ?_⟩
  unfold advanceWidth
  have hmm : (justification twoWordLineExample).runs.map
      (fun r => (r.positions.map Position.xAdvance).sum) =
      ((justification twoWordLineExample).runs.map
        (fun r => r.positions.map Position.xAdvance)).map List.sum := by
    rw [List.map_map]
    rfl
  rw [hmm, justification_two_words_eval]
  norm_num [twoWordLineExample, LineFragment.box]

/-! ## Line finalization (`finalizeLineFragment`, LayoutEngine.js 271-319)

The embedding covers `style.truncationMode = null` (the truncation
engine is external to `src/`, and with a null mode the source skips the
truncate call); the decoration-engine call only populates
`decorationLines` and is likewise outside the rect arithmetic the claim
is about. -/

/-- The alignment strings of the source. -/
inductive Align where
  | left
  | center
  | right
  | justify
deriving Repr, DecidableEq

/-- `ALIGNMENT_FACTORS` from LayoutEngine.js 19-24. -/
def ALIGNMENT_FACTORS : Align → ℚ
  | Align.left => 0
  | Align.center => 1 / 2
  | Align.right => 1
  | Align.justify => 0

/-- The paragraph-style fields `finalizeLineFragment` reads. -/
structure ParagraphStyle where
  align : Align
  alignLastLine : Align
  hangingPunctuation : Bool
deriving Repr, DecidableEq

/-- All glyphs of a line, in order. -/
def lineGlyphs (line : LineFragment) : List JGlyph :=
  (line.runs.map JRun.glyphs).flatten

/-- All glyph widths of a line, in order.  Modelled from the spec:
`line.getGlyphWidth(i)` is the advance of glyph `i` (the `GlyphString`
class is not under `src/`). -/
def glyphWidths (line : LineFragment) : List ℚ :=
  ((line.runs.map JRun.positions).flatten).map Position.xAdvance

def glyphWidthAt (line : LineFragment) (i : Nat) : ℚ :=
  ((glyphWidths line)[i]?).getD 0

/-- Modelled from the spec: hanging-start punctuation glyphs (opening
quotes and brackets; the `GlyphString` class is not under `src/`). -/
def isHangingPunctuationStartGlyph (g : JGlyph) : Bool :=
  g.codePoint == 0x27 || g.codePoint == 0x22 || g.codePoint == 0x28 ||
    g.codePoint == 0x5B

/-- Modelled from the spec: hanging-end punctuation glyphs. -/
def isHangingPunctuationEndGlyph (g : JGlyph) : Bool :=
  g.codePoint == 0x27 || g.codePoint == 0x22 || g.codePoint == 0x29 ||
    g.codePoint == 0x5D || g.codePoint == 0x2C || g.codePoint == 0x2E

def isHangingStartAt (line : LineFragment) (i : Nat) : Bool :=
  match (lineGlyphs line)[i]? with
  | some g => isHangingPunctuationStartGlyph g
  | none => false

def isHangingEndAt (line : LineFragment) (i : Nat) : Bool :=
  match (lineGlyphs line)[i]? with
  | some g => isHangingPunctuationEndGlyph g
  | none => false

/-- Number of leading whitespace glyphs consumed by the first trim loop. -/
def leadingWs (line : LineFragment) : Nat :=
  ((lineGlyphs line).takeWhile isWhiteSpaceGlyph).length

/-- Number of trailing whitespace glyphs consumed by the second trim
loop (which walks down from `line.length` regardless of the first). -/
def trailingWs (line : LineFragment) : Nat :=
  ((lineGlyphs line).reverse.takeWhile isWhiteSpaceGlyph).length

/-- `finalizeLineFragment` (truncation mode null): pick the alignment,
move leading/trailing whitespace widths into the overflows, optionally
hang punctuation, expand the rect by the overflows, shift `x` by the
alignment factor, and justify when aligned `justify` or overfull. -/
def finalizeLineFragment (style : ParagraphStyle)
    (isLastFragment isTruncated : Bool) (line : LineFragment) : LineFragment :=
  let align := if isLastFragment && !isTruncated then style.alignLastLine else style.align
  let n := (lineGlyphs line).length
  let a := leadingWs line
  let b := trailingWs line
  let oL1 := line.overflowLeft + ((glyphWidths line).take a).sum
  let oR1 := line.overflowRight + (((glyphWidths line).reverse).take b).sum
  let hangLeft := style.hangingPunctuation &&
    (align == Align.left || align == Align.justify) && isHangingStartAt line a
  let oL2 := if hangLeft then oL1 + glyphWidthAt line a else oL1
  let hangRight := style.hangingPunctuation &&
    (align == Align.right || align == Align.justify) &&
    decide (0 < n - b) && isHangingEndAt line (n - b - 1)
  let oR2 := if hangRight then oR1 + glyphWidthAt line (n - b - 1) else oR1
  let rect1 : Rect :=
    { line.rect with x := line.rect.x - oL2, width := line.rect.width + oL2 + oR2 }
  let rect2 : Rect :=
    { rect1 with
      x := rect1.x + (rect1.width - advanceWidth line) * ALIGNMENT_FACTORS align }
  let line1 : LineFragment :=
    { line with rect := rect2, overflowLeft := oL2, overflowRight := oR2 }
  if align == Align.justify || advanceWidth line > rect2.width
  then justification line1
  else line1

theorem justification_preserves_rect (l : LineFragment) :
    (justification l).rect = l.rect ∧
    (justification l).overflowLeft = l.overflowLeft ∧
    (justification l).overflowRight = l.overflowRight := by
  unfold justification justifyLine
  split <;> simp

theorem ite_justification_fields (b : Bool) (l : LineFragment) :
    (if b then justification l else l).rect = l.rect ∧
    (if b then justification l else l).overflowRight = l.overflowRight := by
  cases b
  · exact ⟨rfl, rfl⟩
  · exact ⟨(justification_preserves_rect l).1, (justification_preserves_rect l).2.2⟩

/-- C7 amended.  After `finalizeLineFragment` the quantity
`rect.x + rect.width` equals the original `rect.x + rect.width` plus the
final `overflowRight` plus the alignment offset
`(rect.width - advanceWidth) * factor[align]`; the additional offset
term vanishes exactly for the factor-zero alignments `left` and
`justify`, which is the only case where the claim's plain equation
holds. -/
theorem finalizeLineFragment_trim_symmetry (style : ParagraphStyle)
    (isLastFragment isTruncated : Bool) (line : LineFragment) :
    (finalizeLineFragment style isLastFragment isTruncated line).rect.x +
      (finalizeLineFragment style isLastFragment isTruncated line).rect.width =
    line.rect.x + line.rect.width +
      (finalizeLineFragment style isLastFragment isTruncated line).overflowRight +
      ((finalizeLineFragment style isLastFragment isTruncated line).rect.width -
          advanceWidth line) *
        ALIGNMENT_FACTORS
          (if isLastFragment && !isTruncated then style.alignLastLine
            else style.align) := by
  simp only [finalizeLineFragment]
  rw [(ite_justification_fields _ _).1, (ite_justification_fields _ _).2]
  simp only []
  ring

/-- Style and line used by the C7 counterexample: a centered line with
one letter of advance 5 in a rect of width 10. -/
def centerStyleExample : ParagraphStyle :=
  ⟨Align.center, Align.center, false⟩

def centerLineExample : LineFragment where
  rect := ⟨0, 0, 10, 10⟩
  overflowLeft := 0
  overflowRight := 0
  runs := [{ glyphs := [⟨1, false, 97⟩], positions := [⟨5, 0, 0, 0⟩] }]

/-- C7 counterexample: with `align = center` the alignment offset moves
`rect.x` by half the remaining width, so `rect.x + rect.width` after
finalization is `25/2`, not the claimed
`originalRect.x + originalRect.width + overflowRight = 10`: the claim
fails for alignments with a non-zero factor. -/
theorem finalize_center_claim_false :
    (finalizeLineFragment centerStyleExample false false centerLineExample).rect.x +
      (finalizeLineFragment centerStyleExample false false centerLineExample).rect.width ≠
    centerLineExample.rect.x + centerLineExample.rect.width +
      (finalizeLineFragment centerStyleExample false false
        centerLineExample).overflowRight := by
  norm_num [finalizeLineFragment, centerStyleExample, centerLineExample,
    lineGlyphs, glyphWidths, glyphWidthAt, leadingWs, trailingWs,
    isWhiteSpaceGlyph, isHangingStartAt, isHangingEndAt, advanceWidth,
    ALIGNMENT_FACTORS, justification, LineFragment.box,
    List.takeWhile, show ((97 : Nat) == 32) = false from rfl,
    show ¬ (Align.center = Align.justify) from by decide]

/-! ## Word wrapping (`wrapWords`, LayoutEngine.js 121-145)

`string.split(/([ ]+)/g).filter(Boolean)` splits a string into maximal
runs of spaces and maximal runs of non-spaces, in order, dropping the
empty strings the capturing split inserts at the boundaries. -/

def isSpaceChar (c : Char) : Bool := c == ' '

/-- The tokenizer of `wrapWords`: maximal same-class (space/non-space)
groups of the string, in order. -/
def splitTokens : List Char → List (List Char)
  | [] => []
  | c :: cs =>
    ((c :: cs).takeWhile fun x => isSpaceChar x == isSpaceChar c) ::
      splitTokens ((c :: cs).dropWhile fun x => isSpaceChar x == isSpaceChar c)
termination_by l => l.length
decreasing_by
  simp only [List.dropWhile_cons, beq_self_eq_true, if_true, List.length_cons]
  exact Nat.lt_succ_of_le ((cs.dropWhile_sublist _).length_le)

/-- A style run, `start`/`end` offsets into the string (`stop` stands
for the reserved word `end`). -/
structure Run where
  start : Nat
  stop : Nat
deriving Repr, DecidableEq

/-- The `attributedString.string.slice(run.start, run.end)` substring. -/
def substr (s : List Char) (r : Run) : List Char :=
  (s.drop r.start).take (r.stop - r.start)

/-- An attributed string as `wrapWords` consumes it (attributes play no
role in the string/syllable bookkeeping the claim is about). -/
structure WWAttributedString where
  string : List Char
  runs : List Run

/-- `AttributedString.fromFragments` offsets: fragment strings become
contiguous runs. -/
def fragmentRuns : Nat → List (List Char) → List Run
  | _, [] => []
  | off, f :: fs => ⟨off, off + f.length⟩ :: fragmentRuns (off + f.length) fs

/-- `wrapWords`: per run, tokenize the substring, hyphenate each token,
collect the flat syllable list, and rebuild each fragment string as the
concatenation of the syllables of its tokens; the result is
`fromFragments` of the fragments plus the syllables. -/
def wrapWords (hyph : List Char → List (List Char)) (att : WWAttributedString) :
    WWAttributedString × List (List Char) :=
  let frags := att.runs.map fun run =>
    ((splitTokens (substr att.string run)).map fun t => (hyph t).flatten).flatten
  let syllables := (att.runs.map fun run =>
    ((splitTokens (substr att.string run)).map hyph).flatten).flatten
  (⟨frags.flatten, fragmentRuns 0 frags⟩, syllables)

theorem splitTokens_flatten_le :
    ∀ (n : Nat) (s : List Char), s.length ≤ n → (splitTokens s).flatten = s := by
  intro n
  induction n with
  | zero =>
    intro s h
    have hs : s = [] := List.length_eq_zero.mp (Nat.le_zero.mp h)
    subst hs
    simp [splitTokens]
  | succ n ih =>
    intro s h
    cases s with
    | nil => simp [splitTokens]
    | cons c cs =>
      rw [splitTokens, List.flatten_cons]
      have hlen : ((c :: cs).dropWhile fun x => isSpaceChar x == isSpaceChar c).length ≤ n := by
        rw [List.dropWhile_cons]
        simp only [beq_self_eq_true, if_true]
        have := (cs.dropWhile_sublist (fun x => isSpaceChar x == isSpaceChar c)).length_le
        simp only [List.length_cons] at h
        omega
      rw [ih _ hlen, List.takeWhile_append_dropWhile]

theorem splitTokens_flatten (s : List Char) : (splitTokens s).flatten = s :=
  splitTokens_flatten_le s.length s le_rfl

/-- C8.  If the hyphenation oracle satisfies the closure property
`join (hyphenateWord t) = t`, then `wrapWords` rebuilds exactly the
concatenation of the input runs' substrings — no hyphen is inserted —
and the flat syllable list concatenates to that same string. -/
theorem wrapWords_preserves_string (hyph : List Char → List (List Char))
    (hclosure : ∀ t, (hyph t).flatten = t) (att : WWAttributedString) :
    (wrapWords hyph att).1.string = (att.runs.map (substr att.string)).flatten ∧
    (wrapWords hyph att).2.flatten = (att.runs.map (substr att.string)).flatten := by
  have hrun : ∀ sub : List Char,
      ((splitTokens sub).map fun t => (hyph t).flatten).flatten = sub := by
    intro sub
    have hmap : (splitTokens sub).map (fun t => (hyph t).flatten) =
        (splitTokens sub).map id := by
      apply List.map_congr_left
      intro t _
      exact hclosure t
    rw [hmap, List.map_id, splitTokens_flatten]
  constructor
  · show (att.runs.map fun run =>
        ((splitTokens (substr att.string run)).map fun t => (hyph t).flatten).flatten).flatten = _
    congr 1
    apply List.map_congr_left
    intro run _
    exact hrun (substr att.string run)
  · show ((att.runs.map fun run =>
        ((splitTokens (substr att.string run)).map hyph).flatten).flatten).flatten = _
    rw [List.flatten_flatten, List.map_map]
    congr 1
    apply List.map_congr_left
    intro run _
    show (((splitTokens (substr att.string run)).map hyph).flatten).flatten = _
    rw [List.flatten_flatten, List.map_map]
    exact hrun (substr att.string run)

/-- Concrete input for the C8 witness: the string `"a b"` split over two
runs `[0,2)` and `[2,3)`, with the identity hyphenation oracle. -/
def wrapWordsExample : WWAttributedString where
  string := ['a', ' ', 'b']
  runs := [⟨0, 2⟩, ⟨2, 3⟩]

/-- C8 witness: `wrapWords` on `"a b"` with the trivial (closure-abiding)
oracle reproduces the run substrings' concatenation both as the rebuilt
string and as the flattened syllables. -/
theorem wrapWords_preserves_string_witness :
    (wrapWords (fun t => [t]) wrapWordsExample).1.string =
      (wrapWordsExample.runs.map (substr wrapWordsExample.string)).flatten ∧
    (wrapWords (fun t => [t]) wrapWordsExample).2.flatten =
      (wrapWordsExample.runs.map (substr wrapWordsExample.string)).flatten :=
  wrapWords_preserves_string (fun t => [t]) (fun t => by simp) wrapWordsExample

end Textkit
